import Mathlib

/-!
Verification of the catalog search-and-organization engine of the
`vscode-llms-txt` repository: a shallow embedding of the data model and of
the operations in `src/services/websiteService.ts`,
`src/services/searchService.ts`, `src/providers/websitesProvider.ts` and
`src/providers/favoritesProvider.ts`, together with theorems settling the
specification's claims about them.

JavaScript conventions used by the source are made explicit:
an optional string field is `Option String`, `a || b` on strings is
`jsOrStr` (the empty string is falsy), truthiness of an optional string
argument is `jsTruthyOpt`, and `[...new Set(l)]` is `jsSetDedup`
(duplicates removed, first occurrence kept, order preserved).
-/

namespace LlmsTxt

/-- The `Website` record of `src/types/index.ts` as produced by
`fetchWebsites` (`src/services/websiteService.ts`): the two document URLs
are always strings there (the empty string encodes absence, since the
mapping defaults them to `''`), while `category` and `favicon` are
optional. -/
structure Website where
  name : String
  domain : String
  description : String
  category : Option String
  favicon : Option String
  llmsTxtUrl : String
  llmsFullTxtUrl : String
  publishedAt : String
deriving DecidableEq, Repr

/-- The raw catalog record (`WebsiteApiResponse` in `src/types/index.ts`):
either of two alternate field names may carry each document URL. -/
structure WebsiteApiResponse where
  name : String
  domain : String
  description : String
  llmsTxtUrl : Option String
  llmsUrl : Option String
  llmsFullTxtUrl : Option String
  llmsFullUrl : Option String
  category : String
  favicon : String
  publishedAt : String
deriving DecidableEq, Repr

/-- JavaScript `a || b` for an optional string `a`: the empty string and
an absent value are both falsy. -/
def jsOrStr (a : Option String) (b : String) : String :=
  match a with
  | some s => if s = "" then b else s
  | none => b

/-- JavaScript truthiness of an optional string argument. -/
def jsTruthyOpt (a : Option String) : Bool :=
  match a with
  | some s => s != ""
  | none => false

/-- `website.category || 'uncategorized'`, the category normalization
used throughout `searchService.ts` and `websitesProvider.ts`. -/
def normalizedCategory (w : Website) : String :=
  jsOrStr w.category "uncategorized"

/-- JavaScript `s.trim()`: strip leading and trailing whitespace
(character-list formulation). -/
def jsTrim (s : String) : String :=
  ⟨((s.toList.dropWhile Char.isWhitespace).reverse.dropWhile
      Char.isWhitespace).reverse⟩

/-- JavaScript `s.toLowerCase()` (character-wise formulation). -/
def jsToLower (s : String) : String :=
  ⟨s.toList.map Char.toLower⟩

/-- The per-record mapping of `fetchWebsites`
(`src/services/websiteService.ts` lines 18–27):
`llmsTxtUrl: site.llmsTxtUrl || site.llmsUrl || ''` and
`llmsFullTxtUrl: site.llmsFullTxtUrl || site.llmsFullUrl || ''`. -/
def mapSite (site : WebsiteApiResponse) : Website :=
  { name := site.name
    domain := site.domain
    description := site.description
    llmsTxtUrl := jsOrStr site.llmsTxtUrl (jsOrStr site.llmsUrl "")
    llmsFullTxtUrl := jsOrStr site.llmsFullTxtUrl (jsOrStr site.llmsFullUrl "")
    category := some site.category
    favicon := some site.favicon
    publishedAt := site.publishedAt }

/-- The typed error thrown by `fetchWebsites`
(`throw new Error('Failed to fetch websites data')`). -/
inductive FetchError where
  | failedToFetch
deriving DecidableEq, Repr

/-- `fetchWebsites` (`src/services/websiteService.ts`): the axios call's
outcome is the explicit argument (`.error` covers an unreachable source,
a non-2xx response, and a payload on which the mapping throws); on
success every record is mapped through `mapSite`, on failure the typed
`FetchError` is thrown. -/
def fetchWebsitesModel (response : Except Unit (List WebsiteApiResponse)) :
    Except FetchError (List Website) :=
  match response with
  | .ok data => .ok (data.map mapSite)
  | .error _ => .error .failedToFetch

/-! ## SearchService (`src/services/searchService.ts`) -/

/-- A search-history record (`SearchHistoryEntry` in
`src/services/searchService.ts`). -/
structure SearchHistoryEntry where
  query : String
  category : Option String
  timestamp : Int
deriving DecidableEq, Repr

/-- `MAX_HISTORY_ITEMS` in `src/services/searchService.ts`. -/
def MAX_HISTORY_ITEMS : Nat := 10

/-- The mutable fields of `SearchService` relevant to querying: the
current dataset (`allWebsites`) and the search history (newest first). -/
structure SearchState where
  allWebsites : List Website
  searchHistory : List SearchHistoryEntry
deriving DecidableEq, Repr

/-- `SearchService.addToHistory` (lines 132–150): trim the query, drop it
when empty, remove any existing entry with the same `(query, category)`
pair, prepend the new entry, keep the most recent `MAX_HISTORY_ITEMS`. -/
def addToHistory (st : SearchState) (query : String) (category : Option String)
    (now : Int) : SearchState :=
  let trimmedQuery := jsTrim query
  if trimmedQuery = "" then st
  else
    let filtered := st.searchHistory.filter
      (fun e => !(e.query == trimmedQuery && e.category == category))
    { st with searchHistory :=
        (⟨trimmedQuery, category, now⟩ :: filtered).take MAX_HISTORY_ITEMS }

/-- `SearchService.getRecentSearches` (lines 155–160): history queries,
optionally filtered to the supplied category (`!category ||
entry.category === category`). -/
def getRecentSearches (st : SearchState) (category : Option String) : List String :=
  (st.searchHistory.filter
      (fun e => !(jsTruthyOpt category) || e.category == category)).map
    (fun e => e.query)

/-- JavaScript `s.includes(pat)`: `pat` occurs as a contiguous substring
of `s`. -/
def strIncludes (s pat : String) : Bool :=
  s.toList.tails.any (fun t => pat.toList.isPrefixOf t)

/-- `[...new Set(l)]`: remove duplicates keeping the first occurrence of
each element, preserving order. -/
def jsSetDedupAux : List String → List String → List String
  | [], _ => []
  | x :: xs, seen =>
    if seen.contains x then jsSetDedupAux xs seen
    else x :: jsSetDedupAux xs (x :: seen)

/-- `[...new Set(l)]` (insertion-ordered set construction). -/
def jsSetDedup (l : List String) : List String :=
  jsSetDedupAux l []

/-- `SearchService.search` (lines 65–89). The fuzzy index
(`this.fuse.search`) is the explicit argument `fuse`, already closed over
the current dataset; it returns relevance-ranked matches. -/
def search (fuse : String → List Website) (st : SearchState) (query : String)
    (category : Option String) (now : Int) : List Website × SearchState :=
  let st1 := if jsTrim query = "" then st else addToHistory st query category now
  if query == "" && !(jsTruthyOpt category) then
    (st1.allWebsites, st1)
  else
    let results := if query == "" then st1.allWebsites else fuse query
    let results :=
      if jsTruthyOpt category then
        results.filter (fun w => normalizedCategory w == category.getD "")
      else results
    (results, st1)

/-- `SearchService.getSuggestions` (lines 97–120). The fuzzy index is the
explicit argument `fuse`; `fuse.search(partial, { limit: 5 })` is
`(fuse frag).take 5`. The category filter looks each suggested name up in
`allWebsites` with `find` (first match), exactly as the source does. -/
def getSuggestions (fuse : String → List Website) (st : SearchState)
    (frag : String) (category : Option String) : List String :=
  if frag == "" || frag.length < 2 then
    getRecentSearches st category
  else
    let results := (fuse frag).take 5
    let suggestions := results.map (fun w => w.name)
    let suggestions :=
      if jsTruthyOpt category then
        suggestions.filter (fun nm =>
          match st.allWebsites.find? (fun w => w.name == nm) with
          | some w => normalizedCategory w == category.getD ""
          | none => false)
      else suggestions
    let recentSearches := (getRecentSearches st category).filter
      (fun s => strIncludes (jsToLower s) (jsToLower frag))
    jsSetDedup (suggestions ++ recentSearches)

/-! ## Category organization (`src/providers/websitesProvider.ts`) -/

/-- One step of the grouping loop of
`WebsitesProvider.organizeWebsitesByCategory` (lines 248–259): a JS `Map`
keeps keys in insertion order, so appending `w` under `slug` either
extends the existing group or adds a new group at the end. -/
def groupInsert (groups : List (String × List Website)) (slug : String)
    (w : Website) : List (String × List Website) :=
  match groups with
  | [] => [(slug, [w])]
  | (s, ws) :: rest =>
    if s = slug then (s, ws ++ [w]) :: rest
    else (s, ws) :: groupInsert rest slug w

/-- The grouping performed by `organizeWebsitesByCategory`: partition the
shown websites by `website.category || 'uncategorized'`, in first-seen
category order. -/
def organizeGroups (websites : List Website) : List (String × List Website) :=
  websites.foldl (fun gs w => groupInsert gs (normalizedCategory w) w) []

/-! ## FavoritesProvider (`src/providers/favoritesProvider.ts`) -/

/-- `FavoritesProvider.addFavorite` (lines 29–36): push the entry unless
an entry with the same `domain` is already present; the boolean reports
whether the change notification (`_onDidChangeTreeData.fire`) was fired,
which happens exactly when the list was mutated and re-saved. -/
def addFavorite (favorites : List Website) (w : Website) : List Website × Bool :=
  if favorites.any (fun fav => fav.domain == w.domain) then (favorites, false)
  else (favorites ++ [w], true)

/-- `FavoritesProvider.removeFavorite` (lines 38–46): `findIndex` by
`domain` then `splice(index, 1)`; the boolean reports whether the change
notification was fired. -/
def removeFavorite (favorites : List Website) (w : Website) : List Website × Bool :=
  match favorites.findIdx? (fun fav => fav.domain == w.domain) with
  | some i => (favorites.eraseIdx i, true)
  | none => (favorites, false)

/-- `FavoritesProvider.isFavorite` (lines 48–50). -/
def isFavorite (favorites : List Website) (w : Website) : Bool :=
  favorites.any (fun fav => fav.domain == w.domain)

/-! ## WebsitesProvider state, load and refresh
(`src/providers/websitesProvider.ts`) -/

/-- The persisted cache record written under `CACHE_KEY`
(`{ timestamp, websites }`). -/
structure CatalogCache where
  timestamp : Int
  websites : List Website
deriving DecidableEq, Repr

/-- `WebsitesProvider.CACHE_DURATION` (line 28): 24 hours in
milliseconds. -/
def CACHE_DURATION : Int := 24 * 60 * 60 * 1000

/-- The provider state relevant to the claims: the in-memory entry list,
the persisted snapshot, and the search service's state. -/
structure ProviderState where
  websites : List Website
  cache : Option CatalogCache
  searchState : SearchState
deriving DecidableEq, Repr

/-- `WebsitesProvider.getAllWebsites` (lines 368–370). -/
def getAllWebsites (st : ProviderState) : List Website :=
  st.websites

/-- The cache-loading part of the `WebsitesProvider` constructor (lines
44–60): read the persisted snapshot and populate the in-memory list from
it only when `now - cache.timestamp > CACHE_DURATION` does not hold; an
expired or absent snapshot leaves the list empty (the snapshot itself is
not deleted). The constructor performs no fetch: `load` has no fetch
argument at all, and the search service starts with an empty dataset and
empty history (`new SearchService([])`). -/
def load (cache : Option CatalogCache) (now : Int) : ProviderState :=
  match cache with
  | none => ⟨[], none, ⟨[], []⟩⟩
  | some c =>
    if now - c.timestamp > CACHE_DURATION then ⟨[], some c, ⟨[], []⟩⟩
    else ⟨c.websites, some c, ⟨[], []⟩⟩

/-- `WebsitesProvider.refresh` (lines 123–168): run `fetchWebsites` (its
axios outcome is the `response` argument); on success replace the
in-memory list, rebuild the search dataset (history is kept) and persist
a fresh snapshot stamped `now`; on failure nothing has been assigned yet,
the error is reported and rethrown (`throw error`), so the state is
returned untouched together with the error. -/
def refresh (st : ProviderState) (response : Except Unit (List WebsiteApiResponse))
    (now : Int) : Except FetchError Unit × ProviderState :=
  match fetchWebsitesModel response with
  | .error e => (.error e, st)
  | .ok allWebsites =>
    (.ok (),
      { websites := allWebsites
        cache := some ⟨now, allWebsites⟩
        searchState :=
          { allWebsites := allWebsites
            searchHistory := st.searchState.searchHistory } })

/-! ## Spec-modelled fuzzy ranking

The ranking itself is performed by the external `fuse.js` library, which
is not part of this repository; only its configuration (`fuseOptions`,
`src/services/searchService.ts` lines 16–27) is. The model below follows
the specification's words: matching is case-insensitive approximate
string matching, a field matches when its edit-distance-normalized score
is below the fixed cutoff 0.4, fields are weighted (name 2.0, domain 1.5,
category 1.5, description 1.0), and results are ranked by weighted
relevance, best first. -/

/-- One column step of the approximate-substring edit-distance dynamic
program: given the previous column (rows of the pattern) and the next
text character, compute the rest of the new column below its top `0`.
`diag`, `up` and `left` are the standard three neighbours. -/
def colGo (c : Char) : List Char → List Nat → Nat → Nat → List Nat
  | [], _, _, _ => []
  | pc :: ps, prevTail, diag, left =>
    match prevTail with
    | [] => []
    | up :: rest =>
      let cost := if pc == c then 0 else 1
      let cur := Nat.min (Nat.min (up + 1) (left + 1)) (diag + cost)
      cur :: colGo c ps rest up cur

/-- The full new column for text character `c` (its top entry is `0`:
a match may start at any text position). -/
def nextCol (p : List Char) (c : Char) (prev : List Nat) : List Nat :=
  0 :: colGo c p (prev.drop 1) (prev.headD 0) 0

/-- Modelled from the spec: the minimal edit distance between the pattern
`p` and any contiguous substring of the text `t` (the
"edit-distance-normalized score" of the spec, before normalization by the
pattern length). -/
def subLev (p t : List Char) : Nat :=
  let init := (List.range (p.length + 1))
  (t.foldl
      (fun (acc : Nat × List Nat) c =>
        let col := nextCol p c acc.2
        (Nat.min acc.1 (col.getLastD 0), col))
      (init.getLastD 0, init)).1

/-- Modelled from the spec: the edit distance of the pattern against one
field, case-insensitively. -/
def fieldDist (pat : List Char) (field : String) : Nat :=
  subLev pat (jsToLower field).toList

/-- Modelled from the spec: a field matches when its normalized score
`dist / pat.length` is at most the threshold `0.4`
(`10 * dist ≤ 4 * pat.length`). -/
def fieldMatches (pat : List Char) (field : String) : Bool :=
  10 * fieldDist pat field ≤ 4 * pat.length

/-- Modelled from the spec: the weighted contribution of one field, with
the weight scaled by ten (name 20, domain 15, category 15, description
10); a non-matching field contributes nothing. The common denominator
`pat.length` of the per-field scores is dropped, so larger is better. -/
def fieldContrib (w10 : Nat) (pat : List Char) (field : String) : Nat :=
  if fieldMatches pat field then w10 * (pat.length - fieldDist pat field) else 0

/-- Modelled from the spec: the weighted relevance of an entry for a
pattern, over the four configured fields with weights name 2.0, domain
1.5, category 1.5, description 1.0. -/
def relevance (pat : List Char) (w : Website) : Nat :=
  fieldContrib 20 pat w.name + fieldContrib 15 pat w.domain +
    fieldContrib 15 pat (w.category.getD "") + fieldContrib 10 pat w.description

/-- Modelled from the spec: an entry is a match when any configured field
matches the pattern. -/
def websiteMatches (pat : List Char) (w : Website) : Bool :=
  fieldMatches pat w.name || fieldMatches pat w.domain ||
    fieldMatches pat (w.category.getD "") || fieldMatches pat w.description

/-- Insertion into a list sorted by strictly descending key. -/
def insertDesc (key : Website → Nat) (w : Website) : List Website → List Website
  | [] => [w]
  | x :: xs => if key x < key w then w :: x :: xs else x :: insertDesc key w xs

/-- Sort by descending key. -/
def sortDesc (key : Website → Nat) (l : List Website) : List Website :=
  l.foldr (insertDesc key) []

/-- Modelled from the spec: the fuzzy search of the external `fuse.js`
index over a dataset — keep the entries with at least one matching field
and rank them by weighted relevance, best first. -/
def fuseSearchModel (websites : List Website) (q : String) : List Website :=
  let pat := (jsToLower q).toList
  sortDesc (relevance pat) (websites.filter (websiteMatches pat))

/-! ## The suggestion contract as literally claimed, and as amended -/

/-- The suggestion behaviour exactly as the specification states it: for
a short partial, the recent history queries (optionally filtered by
category); otherwise at most 5 fuzzy name matches (filtered by category
if supplied) followed by the history queries containing the partial as a
case-insensitive substring — with no category filter on that history
part — de-duplicated keeping the first occurrence. -/
def getSuggestionsClaim (fuse : String → List Website) (st : SearchState)
    (frag : String) (category : Option String) : List String :=
  if frag.length < 2 then
    getRecentSearches st category
  else
    let fuzzy := ((fuse frag).take 5).map (fun w => w.name)
    let fuzzy :=
      if jsTruthyOpt category then
        fuzzy.filter (fun nm =>
          match st.allWebsites.find? (fun w => w.name == nm) with
          | some w => normalizedCategory w == category.getD ""
          | none => false)
      else fuzzy
    let histMatches := (st.searchHistory.map (fun e => e.query)).filter
      (fun s => strIncludes (jsToLower s) (jsToLower frag))
    jsSetDedup (fuzzy ++ histMatches)

/-- The suggestion behaviour as amended: identical to the literal claim
except that the history queries combined after the fuzzy matches are
drawn from the history filtered by the supplied category (the same
filter the short-partial branch applies). -/
def getSuggestionsAmended (fuse : String → List Website) (st : SearchState)
    (frag : String) (category : Option String) : List String :=
  if frag.length < 2 then
    getRecentSearches st category
  else
    let fuzzy := ((fuse frag).take 5).map (fun w => w.name)
    let fuzzy :=
      if jsTruthyOpt category then
        fuzzy.filter (fun nm =>
          match st.allWebsites.find? (fun w => w.name == nm) with
          | some w => normalizedCategory w == category.getD ""
          | none => false)
      else fuzzy
    let histMatches := (getRecentSearches st category).filter
      (fun s => strIncludes (jsToLower s) (jsToLower frag))
    jsSetDedup (fuzzy ++ histMatches)

/-! ## Helper lemmas -/

theorem jsOrStr_of_truthy {a : Option String} {s : String} (h : a = some s)
    (hs : s ≠ "") (b : String) : jsOrStr a b = s := by
  subst h
  simp [jsOrStr, hs]

theorem jsOrStr_of_falsy {a : Option String} (h : jsTruthyOpt a = false)
    (b : String) : jsOrStr a b = b := by
  cases a with
  | none => rfl
  | some s =>
    have hs : s = "" := by simpa [jsTruthyOpt] using h
    simp [jsOrStr, hs]

/-! ## Claim theorems -/

/-- C1: if `refresh()` is called after a prior successful `refresh()` and
the fetch fails, the typed `FetchError` is surfaced to the caller, and
both the in-memory entry list returned by `getAllWebsites` and the
persisted snapshot are exactly what the successful refresh left — the
failing call changes nothing at all. -/
theorem refresh_failure_is_atomic :
    ∀ (st0 : ProviderState) (data : List WebsiteApiResponse) (now1 now2 : Int)
      (u : Unit),
      (refresh (refresh st0 (.ok data) now1).2 (.error u) now2).1 =
          .error FetchError.failedToFetch ∧
      getAllWebsites (refresh (refresh st0 (.ok data) now1).2 (.error u) now2).2 =
          getAllWebsites (refresh st0 (.ok data) now1).2 ∧
      ((refresh (refresh st0 (.ok data) now1).2 (.error u) now2).2).cache =
          ((refresh st0 (.ok data) now1).2).cache ∧
      (refresh (refresh st0 (.ok data) now1).2 (.error u) now2).2 =
          (refresh st0 (.ok data) now1).2 := by
  intro st0 data now1 now2 u
  exact ⟨rfl, rfl, rfl, rfl⟩

/-- C5: field reconciliation in `fetchWebsites` prefers `llmsTxtUrl`,
falls back to `llmsUrl`, and yields the absent value (the empty string,
which is how the `Website` record encodes an absent URL) when neither is
present — and symmetrically for `llmsFullTxtUrl`/`llmsFullUrl`; the
mapping is total, so no error is ever thrown. -/
theorem mapSite_url_fallback :
    ∀ (site : WebsiteApiResponse),
      (∀ s : String, site.llmsTxtUrl = some s → s ≠ "" →
        (mapSite site).llmsTxtUrl = s) ∧
      (jsTruthyOpt site.llmsTxtUrl = false → ∀ s : String,
        site.llmsUrl = some s → s ≠ "" → (mapSite site).llmsTxtUrl = s) ∧
      (jsTruthyOpt site.llmsTxtUrl = false → jsTruthyOpt site.llmsUrl = false →
        (mapSite site).llmsTxtUrl = "") ∧
      (∀ s : String, site.llmsFullTxtUrl = some s → s ≠ "" →
        (mapSite site).llmsFullTxtUrl = s) ∧
      (jsTruthyOpt site.llmsFullTxtUrl = false → ∀ s : String,
        site.llmsFullUrl = some s → s ≠ "" → (mapSite site).llmsFullTxtUrl = s) ∧
      (jsTruthyOpt site.llmsFullTxtUrl = false →
        jsTruthyOpt site.llmsFullUrl = false →
        (mapSite site).llmsFullTxtUrl = "") := by
  intro site
  refine ⟨?_, ?_, ?_, ?_, ?_, ?_⟩
  · intro s h hs
    exact jsOrStr_of_truthy h hs _
  · intro h1 s h hs
    show jsOrStr site.llmsTxtUrl (jsOrStr site.llmsUrl "") = s
    rw [jsOrStr_of_falsy h1]
    exact jsOrStr_of_truthy h hs _
  · intro h1 h2
    show jsOrStr site.llmsTxtUrl (jsOrStr site.llmsUrl "") = ""
    rw [jsOrStr_of_falsy h1, jsOrStr_of_falsy h2]
  · intro s h hs
    exact jsOrStr_of_truthy h hs _
  · intro h1 s h hs
    show jsOrStr site.llmsFullTxtUrl (jsOrStr site.llmsFullUrl "") = s
    rw [jsOrStr_of_falsy h1]
    exact jsOrStr_of_truthy h hs _
  · intro h1 h2
    show jsOrStr site.llmsFullTxtUrl (jsOrStr site.llmsFullUrl "") = ""
    rw [jsOrStr_of_falsy h1, jsOrStr_of_falsy h2]

/-- Witness for C5 at a concrete record: `llmsTxtUrl` absent and
`llmsUrl = "https://a/llms.txt"` reconcile to the fallback, and a record
with neither yields the absent value. -/
theorem mapSite_url_fallback_witness :
    (mapSite ⟨"A", "a.com", "d", none, some "https://a/llms.txt", none, none,
        "ai-ml", "", "2024"⟩).llmsTxtUrl = "https://a/llms.txt" ∧
    (mapSite ⟨"B", "b.com", "d", none, none, none, none, "ai-ml", "",
        "2024"⟩).llmsFullTxtUrl = "" := by
  constructor
  · exact (mapSite_url_fallback ⟨"A", "a.com", "d", none,
      some "https://a/llms.txt", none, none, "ai-ml", "", "2024"⟩).2.1
      (by decide) "https://a/llms.txt" rfl (by decide)
  · exact (mapSite_url_fallback ⟨"B", "b.com", "d", none, none, none, none,
      "ai-ml", "", "2024"⟩).2.2.2.2.2 (by decide) (by decide)

/-- C6: on construction the persisted snapshot populates the in-memory
list exactly when it is fresh — a snapshot stamped `now - 24h - 1ms` is
expired and ignored (list left empty), one stamped `now - 24h + 1ms` is
fresh and used; an absent snapshot leaves the list empty; the snapshot is
not deleted on load. `load` takes no fetch input at all: no network call
occurs during load. -/
theorem load_uses_snapshot_iff_fresh :
    ∀ (entries : List Website) (now : Int) (c : CatalogCache),
      getAllWebsites (load (some ⟨now - CACHE_DURATION - 1, entries⟩) now) = [] ∧
      getAllWebsites (load (some ⟨now - CACHE_DURATION + 1, entries⟩) now) =
          entries ∧
      getAllWebsites (load none now) = [] ∧
      (load (some c) now).cache = some c := by
  intro entries now c
  have h1 : now - (now - CACHE_DURATION - 1) > CACHE_DURATION := by omega
  have h2 : ¬(now - (now - CACHE_DURATION + 1) > CACHE_DURATION) := by omega
  refine ⟨?_, ?_, rfl, ?_⟩
  · simp [load, getAllWebsites, h1]
  · simp [load, getAllWebsites, h2]
  · simp only [load]
    split <;> rfl

/-- C4: favorites are idempotent — adding an entry twice yields the same
list as adding it once, removing a non-member changes nothing — and the
change notification fires exactly when the list actually mutates (never
on a no-op add of a present domain or a no-op remove of an absent
domain). -/
theorem favorites_idempotent_notify_on_mutation :
    ∀ (favorites : List Website) (w : Website),
      (addFavorite (addFavorite favorites w).1 w).1 = (addFavorite favorites w).1 ∧
      ((∀ fav ∈ favorites, fav.domain ≠ w.domain) →
        removeFavorite favorites w = (favorites, false)) ∧
      ((addFavorite favorites w).2 = true ↔ (addFavorite favorites w).1 ≠ favorites) ∧
      ((removeFavorite favorites w).2 = true ↔
        (removeFavorite favorites w).1 ≠ favorites) := by
  intro favorites w
  refine ⟨?_, ?_, ?_, ?_⟩
  · by_cases h : favorites.any (fun fav => fav.domain == w.domain)
    · simp [addFavorite, h]
    · have h2 : (favorites ++ [w]).any (fun fav => fav.domain == w.domain) = true := by
        simp
      simp [addFavorite, h, h2]
  · intro hall
    have hnone : favorites.findIdx? (fun fav => fav.domain == w.domain) = none := by
      rw [List.findIdx?_eq_none_iff]
      intro x hx
      simpa using hall x hx
    simp [removeFavorite, hnone]
  · by_cases h : favorites.any (fun fav => fav.domain == w.domain)
    · simp [addFavorite, h]
    · simp only [addFavorite, h, Bool.false_eq_true, if_false]
      simp only [true_iff, ne_eq]
      intro hEq
      have := congrArg List.length hEq
      simp at this
  · cases hf : favorites.findIdx? (fun fav => fav.domain == w.domain) with
    | none => simp [removeFavorite, hf]
    | some i =>
      have hi : i < favorites.length :=
        (List.findIdx?_eq_some_iff_findIdx_eq.mp hf).1
      simp only [removeFavorite, hf, true_iff, ne_eq]
      intro hEq
      have := congrArg List.length hEq
      rw [List.length_eraseIdx_of_lt hi] at this
      omega

/-- Witness for C4 at concrete entries: removing a non-member is a no-op
and fires no notification. -/
theorem favorites_idempotent_notify_witness :
    removeFavorite [⟨"A", "a.com", "d", none, none, "", "", ""⟩]
        ⟨"B", "b.com", "d", none, none, "", "", ""⟩ =
      ([⟨"A", "a.com", "d", none, none, "", "", ""⟩], false) := by
  exact (favorites_idempotent_notify_on_mutation
    [⟨"A", "a.com", "d", none, none, "", "", ""⟩]
    ⟨"B", "b.com", "d", none, none, "", "", ""⟩).2.1 (by decide)

/-- C7: a search with the empty query and no category returns the full
entry list in insertion order (and leaves the state alone); whenever a
(truthy) category is supplied, every entry of the result has exactly that
normalized category. -/
theorem search_empty_full_and_category_exact :
    (∀ (fuse : String → List Website) (st : SearchState) (now : Int),
      search fuse st "" none now = (st.allWebsites, st)) ∧
    (∀ (fuse : String → List Website) (st : SearchState) (q c : String)
      (now : Int) (w : Website), c ≠ "" →
      w ∈ (search fuse st q (some c) now).1 → normalizedCategory w = c) := by
  constructor
  · intro fuse st now
    rfl
  · intro fuse st q c now w hc hmem
    have hct : jsTruthyOpt (some c) = true := by
      simp [jsTruthyOpt, hc]
    simp only [search, hct, Bool.not_true, Bool.and_false, Bool.false_eq_true,
      if_false, if_true, Option.getD_some] at hmem
    exact by simpa using (List.mem_filter.mp hmem).2

/-- Witness for C7 at a concrete dataset and category. -/
theorem search_category_exact_witness :
    normalizedCategory ⟨"A", "a.com", "d", some "ai-ml", none, "", "", ""⟩ =
      "ai-ml" := by
  exact (search_empty_full_and_category_exact).2
    (fun _ => [⟨"A", "a.com", "d", some "ai-ml", none, "", "", ""⟩])
    ⟨[⟨"A", "a.com", "d", some "ai-ml", none, "", "", ""⟩], []⟩
    "a" "ai-ml" 0 ⟨"A", "a.com", "d", some "ai-ml", none, "", "", ""⟩
    (by decide) (by decide)

/-- C10: a query that is non-empty but trims to the empty string (for
example all-whitespace) is never recorded: `search` leaves the search
history — indeed the whole search state — exactly unchanged. -/
theorem search_blank_query_preserves_history :
    ∀ (fuse : String → List Website) (st : SearchState) (q : String)
      (c : Option String) (now : Int), jsTrim q = "" →
      (search fuse st q c now).2.searchHistory = st.searchHistory ∧
      (search fuse st q c now).2 = st := by
  intro fuse st q c now h
  have : (search fuse st q c now).2 = st := by
    simp only [search, h, if_true, if_pos]
    split <;> rfl
  exact ⟨by rw [this], this⟩

/-- Witness for C10 at the all-whitespace query `" "`. -/
theorem search_blank_query_witness :
    (search (fun _ => []) ⟨[], [⟨"a", none, 0⟩]⟩ " " none 1).2.searchHistory =
      [⟨"a", none, 0⟩] := by
  exact (search_blank_query_preserves_history (fun _ => [])
    ⟨[], [⟨"a", none, 0⟩]⟩ " " none 1 (by decide)).1

/-- C8 counterexample: with a supplied category, a history query from a
different category that contains the partial is *not* suggested by the
code (the history side is filtered by category before the substring
test), while the claim as stated would include it: at partial `"ab"`,
category `"c"` and history `[{query := "xab", category := none}]` the
code yields `[]` but the literal claim yields `["xab"]`. -/
theorem getSuggestions_claim_counterexample :
    getSuggestions (fun _ => []) ⟨[], [⟨"xab", none, 0⟩]⟩ "ab" (some "c") = [] ∧
    getSuggestionsClaim (fun _ => []) ⟨[], [⟨"xab", none, 0⟩]⟩ "ab" (some "c") =
      ["xab"] ∧
    getSuggestions (fun _ => []) ⟨[], [⟨"xab", none, 0⟩]⟩ "ab" (some "c") ≠
      getSuggestionsClaim (fun _ => []) ⟨[], [⟨"xab", none, 0⟩]⟩ "ab"
        (some "c") := by
  refine ⟨by decide, by decide, by decide⟩

/-- C8 as amended: `getSuggestions` behaves exactly as claimed once the
history queries combined after the fuzzy matches are also drawn from the
history filtered by the supplied category — short partials return the
recent (category-filtered) history queries newest first, longer partials
return at most 5 fuzzy name matches (category-filtered) followed by the
matching history queries, de-duplicated preserving that order. -/
theorem getSuggestions_eq_amended :
    ∀ (fuse : String → List Website) (st : SearchState) (frag : String)
      (category : Option String),
      getSuggestions fuse st frag category =
        getSuggestionsAmended fuse st frag category := by
  intro fuse st frag category
  by_cases h : frag.length < 2
  · have hb : (frag == "" || decide (frag.length < 2)) = true := by
      simp [h]
    simp [getSuggestions, getSuggestionsAmended, hb, h]
  · have hne : (frag == "") = false := by
      rcases hq : frag == "" with _ | _
      · rfl
      · exact absurd (by simp [String.length, (by simpa using hq : frag = "")]) h
    simp [getSuggestions, getSuggestionsAmended, hne, h]

/-! ## The ranking scenario of the spec (C9) -/

/-- The first entry of the ranking scenario. -/
def openaiEntry : Website :=
  ⟨"OpenAI", "openai.com", "AI platform", some "ai-ml", none, "", "", ""⟩

/-- The second entry of the ranking scenario. -/
def openapiEntry : Website :=
  ⟨"OpenAPI Tools", "openapitools.org", "API tooling", some "developer-tools",
    none, "", "", ""⟩

/-- C9: on the two-entry dataset of the spec, searching `"openai"` under
the spec-modelled weighted fuzzy ranking returns both entries with the
OpenAI entry ranked strictly above OpenAPI Tools (its weighted relevance
is strictly greater). -/
theorem search_openai_ranks_name_match_first :
    (search (fuseSearchModel [openaiEntry, openapiEntry])
        ⟨[openaiEntry, openapiEntry], []⟩ "openai" none 0).1 =
      [openaiEntry, openapiEntry] ∧
    relevance ((jsToLower "openai").toList) openaiEntry >
      relevance ((jsToLower "openai").toList) openapiEntry := by
  refine ⟨by decide, by decide⟩

/-! ## C2: the organizer partitions exactly -/

/-- All entries across a list of category groups, in group order. -/
def groupEntries : List (String × List Website) → List Website
  | [] => []
  | g :: rest => g.2 ++ groupEntries rest

theorem groupInsert_entries_perm (gs : List (String × List Website))
    (s : String) (w : Website) :
    (groupEntries (groupInsert gs s w)).Perm (groupEntries gs ++ [w]) := by
  induction gs with
  | nil => simp [groupInsert, groupEntries]
  | cons g rest ih =>
    obtain ⟨s', ws'⟩ := g
    by_cases h : s' = s
    · subst h
      simp only [groupInsert, if_pos rfl, groupEntries]
      have h2 : ((ws' ++ [w]) ++ groupEntries rest).Perm
          (ws' ++ (groupEntries rest ++ [w])) := by
        rw [List.append_assoc]
        exact List.Perm.append_left ws' List.perm_append_comm
      simpa [List.append_assoc] using h2
    · simp only [groupInsert, if_neg h, groupEntries]
      have h2 : (ws' ++ groupEntries (groupInsert rest s w)).Perm
          (ws' ++ (groupEntries rest ++ [w])) :=
        List.Perm.append_left ws' ih
      simpa [List.append_assoc] using h2

theorem organize_entries_perm_aux :
    ∀ (ws : List Website) (gs : List (String × List Website)),
      (groupEntries
          (ws.foldl (fun gs w => groupInsert gs (normalizedCategory w) w) gs)).Perm
        (groupEntries gs ++ ws) := by
  intro ws
  induction ws with
  | nil => intro gs; simp
  | cons w ws ih =>
    intro gs
    simp only [List.foldl_cons]
    have h1 := ih (groupInsert gs (normalizedCategory w) w)
    have h3 := List.Perm.append_right ws
      (groupInsert_entries_perm gs (normalizedCategory w) w)
    simpa [List.append_assoc] using h1.trans h3

theorem groupInsert_slugs (gs : List (String × List Website)) (w : Website)
    (h : ∀ g ∈ gs, ∀ x ∈ g.2, normalizedCategory x = g.1) :
    ∀ g ∈ groupInsert gs (normalizedCategory w) w, ∀ x ∈ g.2,
      normalizedCategory x = g.1 := by
  induction gs with
  | nil =>
    intro g hg x hx
    simp only [groupInsert, List.mem_singleton] at hg
    subst hg
    simp only [List.mem_singleton] at hx
    subst hx
    rfl
  | cons g0 rest ih =>
    obtain ⟨s', ws'⟩ := g0
    intro g hg x hx
    by_cases hs : s' = normalizedCategory w
    · simp only [groupInsert, if_pos hs] at hg
      rcases List.mem_cons.mp hg with h1 | h1
      · subst h1
        rcases List.mem_append.mp hx with h2 | h2
        · exact h (s', ws') (List.mem_cons_self _ _) x h2
        · simp only [List.mem_singleton] at h2
          subst h2
          exact hs.symm
      · exact h g (List.mem_cons_of_mem _ h1) x hx
    · simp only [groupInsert, if_neg hs] at hg
      rcases List.mem_cons.mp hg with h1 | h1
      · subst h1
        exact h (s', ws') (List.mem_cons_self _ _) x hx
      · exact ih (fun g' hg' x' hx' => h g' (List.mem_cons_of_mem _ hg') x' hx')
          g h1 x hx

theorem organize_slugs_aux :
    ∀ (ws : List Website) (gs : List (String × List Website)),
      (∀ g ∈ gs, ∀ x ∈ g.2, normalizedCategory x = g.1) →
      ∀ g ∈ ws.foldl (fun gs w => groupInsert gs (normalizedCategory w) w) gs,
        ∀ x ∈ g.2, normalizedCategory x = g.1 := by
  intro ws
  induction ws with
  | nil => intro gs h; simpa using h
  | cons w ws ih =>
    intro gs h
    simp only [List.foldl_cons]
    exact ih _ (groupInsert_slugs gs w h)

/-- C2: the organizer's grouping loses and duplicates nothing — the
multiset union of the entries across all produced groups equals the given
entry set exactly — and every entry lands in the group whose slug is that
entry's normalized category (absent or empty category normalized to
`"uncategorized"`). -/
theorem organize_partitions_exactly :
    ∀ (S : List Website),
      (↑(groupEntries (organizeGroups S)) : Multiset Website) =
        (↑S : Multiset Website) ∧
      ∀ g ∈ organizeGroups S, ∀ w ∈ g.2, g.1 = normalizedCategory w := by
  intro S
  constructor
  · rw [Multiset.coe_eq_coe]
    simpa [groupEntries, organizeGroups] using organize_entries_perm_aux S []
  · intro g hg w hw
    have hg' : g ∈ S.foldl (fun gs w => groupInsert gs (normalizedCategory w) w) [] := by
      simpa [organizeGroups] using hg
    exact (organize_slugs_aux S [] (by simp) g hg' w hw).symm

/-- Witness for C2 at a concrete one-entry set. -/
theorem organize_partitions_witness :
    (↑(groupEntries
        (organizeGroups [⟨"A", "a.com", "d", some "ai-ml", none, "", "", ""⟩])) :
      Multiset Website) =
        (↑[(⟨"A", "a.com", "d", some "ai-ml", none, "", "", ""⟩ : Website)] :
          Multiset Website) ∧
    ("ai-ml" : String) =
      normalizedCategory ⟨"A", "a.com", "d", some "ai-ml", none, "", "", ""⟩ := by
  constructor
  · exact (organize_partitions_exactly
      [⟨"A", "a.com", "d", some "ai-ml", none, "", "", ""⟩]).1
  · exact (organize_partitions_exactly
      [⟨"A", "a.com", "d", some "ai-ml", none, "", "", ""⟩]).2
      ("ai-ml", [⟨"A", "a.com", "d", some "ai-ml", none, "", "", ""⟩])
      (by decide) ⟨"A", "a.com", "d", some "ai-ml", none, "", "", ""⟩ (by decide)

/-! ## C3: search-history invariants -/

/-- The de-duplication key of a history entry: its `(query, category)`
pair. -/
def histKey (e : SearchHistoryEntry) : String × Option String :=
  (e.query, e.category)

/-- The key a search input `(query, category, timestamp)` is stored
under: the trimmed query paired with the category. -/
def queryKey (x : String × Option String × Int) : String × Option String :=
  (jsTrim x.1, x.2.1)

/-- The history entry a search input produces. -/
def mkHistEntry (x : String × Option String × Int) : SearchHistoryEntry :=
  ⟨jsTrim x.1, x.2.1, x.2.2⟩

/-- Issue a sequence of searches, oldest first. -/
def addQueries (st : SearchState)
    (items : List (String × Option String × Int)) : SearchState :=
  items.foldl (fun s x => addToHistory s x.1 x.2.1 x.2.2) st

theorem filter_keep_of_no_key (h : List SearchHistoryEntry) (t : String)
    (c : Option String) (hk : ∀ e ∈ h, ¬(e.query = t ∧ e.category = c)) :
    h.filter (fun e => !(e.query == t && e.category == c)) = h := by
  rw [List.filter_eq_self]
  intro e he
  have hke := hk e he
  rw [not_and] at hke
  by_cases h1 : e.query = t
  · simp [h1, hke h1]
  · simp [h1]

theorem take_cons_take (a : SearchHistoryEntry) (t : List SearchHistoryEntry)
    (n : Nat) : (a :: t.take (n + 1)).take (n + 1) = (a :: t).take (n + 1) := by
  rw [List.take_succ_cons, List.take_succ_cons, List.take_take,
    Nat.min_eq_left (Nat.le_succ n)]

theorem addQueries_empty_distinct :
    ∀ (items : List (String × Option String × Int)) (ws : List Website),
      (∀ x ∈ items, jsTrim x.1 ≠ "") →
      (items.map queryKey).Nodup →
      (addQueries ⟨ws, []⟩ items).searchHistory =
        (items.reverse.map mkHistEntry).take MAX_HISTORY_ITEMS := by
  intro items
  induction items using List.reverseRecOn with
  | nil => intro ws _ _; rfl
  | append_singleton l x ih =>
    intro ws hne hnd
    have hnd' : (l.map queryKey).Nodup ∧ queryKey x ∉ l.map queryKey := by
      rw [List.map_append, List.nodup_append] at hnd
      refine ⟨hnd.1, fun hmem => ?_⟩
      exact hnd.2.2 hmem (by simp)
    have hstep : addQueries ⟨ws, []⟩ (l ++ [x]) =
        addToHistory (addQueries ⟨ws, []⟩ l) x.1 x.2.1 x.2.2 := by
      simp [addQueries, List.foldl_append]
    have ihl := ih ws (fun y hy => hne y (List.mem_append_left _ hy)) hnd'.1
    have htr : ¬(jsTrim x.1 = "") := hne x (by simp)
    have hfil : ((addQueries ⟨ws, []⟩ l).searchHistory).filter
        (fun e => !(e.query == jsTrim x.1 && e.category == x.2.1)) =
        (addQueries ⟨ws, []⟩ l).searchHistory := by
      rw [ihl]
      apply filter_keep_of_no_key
      intro e he hkey
      have he' := List.mem_of_mem_take he
      rcases List.mem_map.mp he' with ⟨y, hy, rfl⟩
      have hkk : queryKey y = queryKey x := by
        simp only [mkHistEntry] at hkey
        simp [queryKey, hkey.1, hkey.2]
      exact hnd'.2
        (hkk ▸ List.mem_map_of_mem queryKey (List.mem_reverse.mp hy))
    rw [hstep]
    simp only [addToHistory, htr, if_false, ite_false]
    rw [hfil, ihl]
    have hmk : ({ query := jsTrim x.1, category := x.2.1, timestamp := x.2.2 } :
        SearchHistoryEntry) = mkHistEntry x := rfl
    rw [hmk, List.reverse_append, List.map_append]
    simp only [List.reverse_cons, List.reverse_nil, List.nil_append,
      List.map_cons, List.map_nil, List.singleton_append]
    exact take_cons_take (mkHistEntry x) (l.reverse.map mkHistEntry) 9

theorem length_filter_out_key :
    ∀ (h : List SearchHistoryEntry) (t : String) (c : Option String),
      (h.map histKey).Nodup → (t, c) ∈ h.map histKey →
      (h.filter (fun e => !(e.query == t && e.category == c))).length =
        h.length - 1 := by
  intro h t c
  induction h with
  | nil => intro _ hmem; simp at hmem
  | cons e h ih =>
    intro hnd hmem
    simp only [List.map_cons, List.nodup_cons] at hnd
    obtain ⟨hnotin, hnd'⟩ := hnd
    by_cases he : e.query = t ∧ e.category = c
    · have hpred : (!(e.query == t && e.category == c)) = false := by
        simp [he.1, he.2]
      rw [List.filter_cons, hpred]
      simp only [Bool.false_eq_true, if_false, ite_false]
      have hrest : h.filter (fun e' => !(e'.query == t && e'.category == c)) = h := by
        apply filter_keep_of_no_key
        intro e' he' hk'
        apply hnotin
        have : histKey e' = (t, c) := by simp [histKey, hk'.1, hk'.2]
        have h1 : histKey e = (t, c) := by simp [histKey, he.1, he.2]
        rw [h1, ← this]
        exact List.mem_map_of_mem histKey he'
      rw [hrest]
      simp
    · have hpred : (!(e.query == t && e.category == c)) = true := by
        rcases not_and_or.mp he with h1 | h1 <;> simp [h1]
      have hne : (t, c) ≠ histKey e := by
        intro hcon
        apply he
        simp [histKey] at hcon
        exact ⟨hcon.1.symm, hcon.2.symm⟩
      have hmem' : (t, c) ∈ h.map histKey := by
        rcases List.mem_cons.mp hmem with h1 | h1
        · exact absurd h1 hne
        · exact h1
      have hlen : 1 ≤ h.length := by
        rcases h with _ | _
        · simp at hmem'
        · simp
      rw [List.filter_cons, hpred]
      simp only [if_true, ite_true, List.length_cons, ih hnd' hmem']
      omega

theorem addToHistory_length_le (st : SearchState) (q : String)
    (c : Option String) (t : Int)
    (h : st.searchHistory.length ≤ MAX_HISTORY_ITEMS) :
    (addToHistory st q c t).searchHistory.length ≤ MAX_HISTORY_ITEMS := by
  by_cases htr : jsTrim q = ""
  · simpa [addToHistory, htr] using h
  · simp only [addToHistory, htr, if_false, ite_false]
    exact List.length_take_le _ _

theorem addToHistory_nodup_keys (st : SearchState) (q : String)
    (c : Option String) (t : Int)
    (h : (st.searchHistory.map histKey).Nodup) :
    ((addToHistory st q c t).searchHistory.map histKey).Nodup := by
  by_cases htr : jsTrim q = ""
  · simpa [addToHistory, htr] using h
  · simp only [addToHistory, htr, if_false, ite_false]
    apply List.Nodup.sublist (List.Sublist.map _ (List.take_sublist _ _))
    rw [List.map_cons, List.nodup_cons]
    constructor
    · intro hmem
      rcases List.mem_map.mp hmem with ⟨e, he, hkey⟩
      have hp := (List.mem_filter.mp he).2
      simp only [histKey] at hkey
      have h1 : e.query = jsTrim q := congrArg Prod.fst hkey
      have h2 : e.category = c := congrArg Prod.snd hkey
      simp [h1, h2] at hp
    · exact List.Nodup.sublist
        (List.Sublist.map _ (List.filter_sublist _)) h

/-- C3: the search history is ring-bounded and de-duplicated — an add
never grows it past 10 entries and never introduces two entries with the
same `(query, category)` pair; issuing 11 pairwise-distinct non-empty
searches from a fresh service leaves exactly the 10 most recent, newest
first; re-issuing an already-present `(query, category)` pair moves that
entry to the front (in front of the other entries, which keep their
order) without growing the count. -/
theorem searchHistory_bound_dedup_mru :
    (∀ (st : SearchState) (q : String) (c : Option String) (t : Int),
      st.searchHistory.length ≤ MAX_HISTORY_ITEMS →
      (addToHistory st q c t).searchHistory.length ≤ MAX_HISTORY_ITEMS) ∧
    (∀ (st : SearchState) (q : String) (c : Option String) (t : Int),
      (st.searchHistory.map histKey).Nodup →
      ((addToHistory st q c t).searchHistory.map histKey).Nodup) ∧
    (∀ (items : List (String × Option String × Int)) (ws : List Website),
      items.length = 11 →
      (∀ x ∈ items, jsTrim x.1 ≠ "") →
      (items.map queryKey).Nodup →
      (addQueries ⟨ws, []⟩ items).searchHistory =
        ((items.reverse.map mkHistEntry).take 10) ∧
      (addQueries ⟨ws, []⟩ items).searchHistory.length = 10) ∧
    (∀ (st : SearchState) (q : String) (c : Option String) (t : Int),
      jsTrim q ≠ "" →
      (st.searchHistory.map histKey).Nodup →
      st.searchHistory.length ≤ MAX_HISTORY_ITEMS →
      (jsTrim q, c) ∈ st.searchHistory.map histKey →
      (addToHistory st q c t).searchHistory =
        ⟨jsTrim q, c, t⟩ ::
          st.searchHistory.filter
            (fun e => !(e.query == jsTrim q && e.category == c)) ∧
      (addToHistory st q c t).searchHistory.length =
        st.searchHistory.length) := by
  refine ⟨addToHistory_length_le, addToHistory_nodup_keys, ?_, ?_⟩
  · intro items ws hlen hne hnd
    have h := addQueries_empty_distinct items ws hne hnd
    refine ⟨by simpa [MAX_HISTORY_ITEMS] using h, ?_⟩
    rw [h]
    have : (items.reverse.map mkHistEntry).length = 11 := by simp [hlen]
    rw [List.length_take, this]
    rfl
  · intro st q c t htr hnd hle hmem
    have hkmem : (jsTrim q, c) ∈ st.searchHistory.map histKey := hmem
    have hflen := length_filter_out_key st.searchHistory (jsTrim q) c hnd hkmem
    have hpos : 1 ≤ st.searchHistory.length := by
      rcases hh : st.searchHistory with _ | _
      · rw [hh] at hkmem; simp at hkmem
      · simp [hh]
    have heq : (addToHistory st q c t).searchHistory =
        ⟨jsTrim q, c, t⟩ ::
          st.searchHistory.filter
            (fun e => !(e.query == jsTrim q && e.category == c)) := by
      simp only [addToHistory, htr, if_false, ite_false]
      apply List.take_of_length_le
      rw [List.length_cons, hflen]
      omega
    refine ⟨heq, ?_⟩
    rw [heq, List.length_cons, hflen]
    omega

/-- Witness for C3: a concrete re-issue of a present pair moves it to the
front without growing the count, and a concrete 11-query run keeps the
last 10. -/
theorem searchHistory_bound_dedup_mru_witness :
    (addToHistory ⟨[], [⟨"b", none, 1⟩, ⟨"a", none, 0⟩]⟩ "a" none 5).searchHistory =
      ⟨"a", none, 5⟩ ::
        ([⟨"b", none, 1⟩, ⟨"a", none, 0⟩] : List SearchHistoryEntry).filter
          (fun e => !(e.query == jsTrim "a" && e.category == none)) ∧
    (addToHistory ⟨[], [⟨"b", none, 1⟩, ⟨"a", none, 0⟩]⟩ "a" none 5).searchHistory.length = 2 := by
  have h := (searchHistory_bound_dedup_mru).2.2.2
    ⟨[], [⟨"b", none, 1⟩, ⟨"a", none, 0⟩]⟩ "a" none 5
    (by decide) (by decide) (by decide) (by decide)
  exact ⟨by simpa using h.1, h.2⟩

end LlmsTxt
